import Mathlib

/-!
Shallow embedding of the push-item registry of `Lib/gftools/push/trafficjam.py`
(data model, path normalization, the `PushItems.add` algorithm, the manifest
codec `to_server_file` / `from_server_file`, and the `bump_pushlist` state
machine), together with theorems checking the specification's claims.

Paths are modelled as lists of segments (`pathlib.PurePosixPath.parts` of a
relative path); strings handled character by character are modelled as
`List Char` (Python `str` operations `split`, `strip`, `replace`,
`startswith`, `in` correspond to the list functions defined below).
External collaborators (the filesystem `is_dir`/`exists` checks and the
`repo_path_to_google_path` transform from `gftools.push.utils`) are passed
in as explicit oracle parameters.
-/

/-- Python `str.split(sep)` for a one-character separator `c`, on the
character list of the string.  `splitCh c []` yields `[[]]`, matching
`"".split(c) == [""]`. -/
def splitCh (c : Char) : List Char → List (List Char)
  | [] => [[]]
  | x :: xs =>
    match splitCh c xs with
    | [] => [[]]
    | y :: ys => if x = c then [] :: y :: ys else (x :: y) :: ys

/-- Python `sep.join(parts)` for a one-character separator: intercalates the
separator between the character lists (`"".join([]) == ""`). -/
def joinCh (c : Char) : List (List Char) → List Char
  | [] => []
  | [l] => l
  | l :: ls => l ++ c :: joinCh c ls

/-- Python `pat in s` substring containment on character lists (`pat` occurs
as a contiguous sublist). -/
def isSubListOf (pat : List Char) : List Char → Bool
  | [] => pat.isEmpty
  | x :: xs => pat.isPrefixOf (x :: xs) || isSubListOf pat xs

/-- Python `str.strip()`: removes leading and trailing whitespace characters. -/
def trimChars (l : List Char) : List Char :=
  ((l.dropWhile Char.isWhitespace).reverse.dropWhile Char.isWhitespace).reverse

/-- Worker for `replaceAll`, structurally recursive on a fuel argument that
bounds the length of the list (each step consumes at least one character). -/
def replaceAllGo (pat rep : List Char) : Nat → List Char → List Char
  | _, [] => []
  | 0, l => l
  | n + 1, x :: xs =>
    if pat.isPrefixOf (x :: xs) && !pat.isEmpty then
      rep ++ replaceAllGo pat rep n ((x :: xs).drop pat.length)
    else
      x :: replaceAllGo pat rep n xs

/-- Python `str.replace(pat, rep)` for non-empty `pat`: replaces every
non-overlapping occurrence of `pat` left to right. -/
def replaceAll (pat rep l : List Char) : List Char :=
  replaceAllGo pat rep l.length l

/-- Index of the last occurrence of `c` in `l` (Python `str.rfind`),
or `none` when absent. -/
def lastIdxOf (c : Char) : List Char → Option Nat
  | [] => none
  | x :: xs =>
    match lastIdxOf c xs with
    | some i => some (i + 1)
    | none => if x = c then some 0 else none

/-- Python `PurePath.suffix` of a single path component `name`: the substring
from the last dot onward, provided the dot is neither the first nor the last
character; otherwise the empty string. -/
def pySuffix (name : String) : String :=
  match lastIdxOf '.' name.data with
  | none => ""
  | some i =>
    if 0 < i ∧ i + 1 < name.data.length then String.mk (name.data.drop i) else ""

/-- Lexicographic strict comparison of character lists (Python `str <`). -/
def chLt : List Char → List Char → Bool
  | [], [] => false
  | [], _ :: _ => true
  | _ :: _, [] => false
  | a :: as, b :: bs => a < b || (a = b && chLt as bs)

/-- Lexicographic `≤` on character lists (Python `str <=`). -/
def chLe (a b : List Char) : Bool :=
  a = b || chLt a b

/-- A path as `PurePosixPath.parts`: the list of path segments. -/
abbrev GPath := List String

/-- Python `str(path)` / `path.as_posix()` for a relative path: the segments
joined by `/`; the empty path (`Path(".")`) prints as `"."`. -/
def posixD (p : GPath) : List Char :=
  if p = [] then ['.'] else joinCh '/' (p.map String.data)

/-- Python `Path(s)` for a relative string path: split on `/` and drop empty
and `.` segments (`pathlib`'s normalization of a relative path string). -/
def pathOfD (l : List Char) : GPath :=
  ((splitCh '/' l).map String.mk).filter fun s => s ≠ "" && s ≠ "."

/-- Python `path.parent.parts`: all segments but the last (the parent of a
one-segment or empty relative path is `Path(".")`, i.e. `[]`). -/
def parentD (p : GPath) : GPath :=
  p.dropLast

/-- The `PushCategory` enumeration of `trafficjam.py`, in declaration order. -/
inductive PushCategory where
  | NEW
  | UPGRADE
  | OTHER
  | DESIGNER_PROFILE
  | AXIS_REGISTRY
  | KNOWLEDGE
  | METADATA
  | SAMPLE_TEXTS
  | BLOCKED
  | DELETED
deriving DecidableEq, Repr

/-- The `value` string of each `PushCategory` member. -/
def PushCategory.value : PushCategory → String
  | .NEW => "New"
  | .UPGRADE => "Upgrade"
  | .OTHER => "Other"
  | .DESIGNER_PROFILE => "Designer profile"
  | .AXIS_REGISTRY => "Axis Registry"
  | .KNOWLEDGE => "Knowledge"
  | .METADATA => "Metadata / Description / License"
  | .SAMPLE_TEXTS => "Sample texts"
  | .BLOCKED => "Blocked"
  | .DELETED => "Deleted"

/-- Iteration order of the `PushCategory` enum (declaration order), as used by
`PushCategory.values()` and by `to_server_file`'s group ordering. -/
def PushCategory.all : List PushCategory :=
  [.NEW, .UPGRADE, .OTHER, .DESIGNER_PROFILE, .AXIS_REGISTRY, .KNOWLEDGE,
   .METADATA, .SAMPLE_TEXTS, .BLOCKED, .DELETED]

/-- `PushCategory.from_string`: the first member whose `value` equals the
string, else `None`. -/
def PushCategory.from_string (s : String) : Option PushCategory :=
  PushCategory.all.find? fun c => c.value == s

/-- The `PushStatus` enumeration of `trafficjam.py`. -/
inductive PushStatus where
  | PR_GF
  | IN_DEV
  | IN_SANDBOX
  | LIVE
deriving DecidableEq, Repr

/-- The `PushList` enumeration of `trafficjam.py`. -/
inductive PushList where
  | TO_SANDBOX
  | TO_PRODUCTION
  | BLOCKED
deriving DecidableEq, Repr

/-- The `LIST_OPTION_IDS` enumeration: board option identifiers for the three
list values (the opaque id strings are irrelevant to the logic). -/
inductive LIST_OPTION_IDS where
  | TO_SANDBOX
  | TO_PRODUCTION
  | BLOCKED
deriving DecidableEq, Repr

/-- The `PushItem` dataclass.  `category` is `Option` because
`from_server_file` stores the result of `PushCategory.from_string`, which can
be `None`; `status`, `push_list`, `merged` and `id_` are `Optional` in the
source. -/
structure PushItem where
  path : GPath
  category : Option PushCategory
  status : Option PushStatus
  url : String
  push_list : Option PushList := none
  merged : Option Bool := none
  id_ : Option String := none
deriving DecidableEq, Repr

/-- `FAMILY_FILE_SUFFIXES` from `trafficjam.py`. -/
def FAMILY_FILE_SUFFIXES : List String :=
  [".ttf", ".otf", ".html", ".pb", ".txt", ".yaml", ".png"]

/-- The path-mutation phase at the top of `PushItems.add` (lines 290-317 of
`trafficjam.py`): the `article`/`static` truncation, the font-family
truncation, the `lang`/`axisregistry` `.textproto` rewrite via
`repo_path_to_google_path` (oracle `r2g`), and the discard (`none`) of other
`lang`/`axisregistry` files.  `isDir` is the filesystem `Path.is_dir` oracle. -/
def normalizePath (isDir : GPath → Bool) (r2g : GPath → GPath) (p : GPath) :
    Option GPath :=
  if p.contains "article" || p.contains "static" then
    some (if isDir p then parentD p else parentD (parentD p))
  else if (p.contains "ofl" || p.contains "ufl" || p.contains "apache" ||
      p.contains "designers") &&
      FAMILY_FILE_SUFFIXES.contains (pySuffix ((p.getLast?).getD "")) then
    some (parentD p)
  else if (p.contains "lang" || p.contains "axisregistry") &&
      pySuffix ((p.getLast?).getD "") == ".textproto" then
    some (r2g p)
  else if (p.contains "lang" || p.contains "axisregistry") &&
      pySuffix ((p.getLast?).getD "") != ".textproto" then
    none
  else
    some p

/-- A `PushItems` registry: the underlying ordered list. -/
abbrev PushItems := List PushItem

/-- The condition of the `to_pop` scan in `PushItems.add` (line 333):
`str(i.path.parent) in str(i.path) or i.path == item.path`, where `in` is
substring containment. -/
def toPopCond (itemPath : GPath) (i : PushItem) : Bool :=
  isSubListOf (posixD (parentD i.path)) (posixD i.path) || i.path == itemPath

/-- `PushItems.add` (lines 289-339 of `trafficjam.py`).  After the path
mutation phase, one-segment paths are discarded; an existing member with the
same path is popped; then the `to_pop` scan records the first index whose
member satisfies `toPopCond` and pops it only when the *truthiness* test
`if to_pop:` passes, i.e. only when the index is non-zero; finally the item is
appended. -/
def PushItems.add (isDir : GPath → Bool) (r2g : GPath → GPath)
    (self : PushItems) (item : PushItem) : PushItems :=
  match normalizePath isDir r2g item.path with
  | none => self
  | some p =>
    if p.length = 1 then self
    else
      let item := { item with path := p }
      let self1 :=
        match self.findIdx? (fun i => i.path == item.path) with
        | some idx => self.eraseIdx idx
        | none => self
      let self2 :=
        match self1.findIdx? (toPopCond item.path) with
        | some idx => if idx = 0 then self1 else self1.eraseIdx idx
        | none => self1
      self2 ++ [item]

/-- `PushItems.__add__`: deep-copies `self` and feeds every member of `other`
through `add`. -/
def PushItems.plus (isDir : GPath → Bool) (r2g : GPath → GPath)
    (self other : PushItems) : PushItems :=
  other.foldl (PushItems.add isDir r2g) self

/-- `PushItems.__sub__`: keeps the members of `self` not in `other`
(membership by `PushItem.__eq__`, i.e. path equality) and replays the
survivors through `add` on a fresh registry. -/
def PushItems.sub (isDir : GPath → Bool) (r2g : GPath → GPath)
    (self other : PushItems) : PushItems :=
  (self.filter fun i => !(other.any fun j => j.path == i.path)).foldl
    (PushItems.add isDir r2g) []

/-- Constant `False` filesystem `is_dir` oracle: no path on disk is a
directory (the situation on a machine without the google/fonts checkout). -/
def noDir : GPath → Bool := fun _ => false

/-- Identity instantiation of the external `repo_path_to_google_path`
transform; the claims under study never reach the `lang`/`axisregistry`
rewrite branch. -/
def gId : GPath → GPath := id

/-- Constant `True` filesystem existence oracle for `PushItem.exists`. -/
def allExist : GPath → Bool := fun _ => true

/-- One output line of `to_server_file` for a member: `path # url` when the
item exists on disk (oracle `ex`), else the `# Deleted:` marker with the url
appended only when the url is non-empty. -/
def itemLine (ex : GPath → Bool) (i : PushItem) : List Char :=
  if ex i.path then posixD i.path ++ (" # ".data) ++ i.url.data
  else if i.url ≠ "" then
    ("# Deleted: ".data) ++ posixD i.path ++ (" # ".data) ++ i.url.data
  else ("# Deleted: ".data) ++ posixD i.path

/-- Worker for `dedupByPath`: `seen` is the set of paths already inserted. -/
def dedupByPathGo (seen : List GPath) : PushItems → PushItems
  | [] => []
  | i :: rest =>
    if seen.contains i.path then dedupByPathGo seen rest
    else i :: dedupByPathGo (i.path :: seen) rest

/-- Insertion into `bins[...]`, a Python `set` of `PushItem` hashed and
compared by path: iterating a list into the set keeps the first occurrence of
each path. -/
def dedupByPath (l : PushItems) : PushItems :=
  dedupByPathGo [] l

/-- The comparison `key=lambda k: k.path` of `sorted` in `to_server_file`:
`PurePath` ordering compares the path's string form. -/
def pathLe (a b : PushItem) : Prop :=
  chLe (posixD a.path) (posixD b.path) = true

instance : DecidableRel pathLe := fun a b => instDecidableEqBool _ _

/-- `sorted(bin, key=lambda k: k.path)`: sort by the path's string form
(`PurePath` ordering compares `str(path)`). -/
def sortByPath (l : PushItems) : PushItems :=
  l.insertionSort pathLe

/-- The members binned under category `c` by `to_server_file`: members of
category `BLOCKED` are skipped before binning, so the `BLOCKED` bin is always
empty. -/
def binFor (c : PushCategory) (R : PushItems) : PushItems :=
  R.filter fun i => i.category == some c && c != PushCategory.BLOCKED

/-- The block of output lines of one category group: the `# <tag>` heading,
the sorted deduplicated member lines, and the trailing blank line; empty when
the bin is empty (`if tag not in bins: continue`). -/
def groupLines (ex : GPath → Bool) (c : PushCategory) (R : PushItems) :
    List (List Char) :=
  let bin := sortByPath (dedupByPath (binFor c R))
  if bin.isEmpty then []
  else (("# ".data ++ (PushCategory.value c).data) :: bin.map (itemLine ex)) ++ [[]]

/-- All output lines of `to_server_file`, category groups in declaration
order. -/
def encLines (ex : GPath → Bool) (R : PushItems) : List (List Char) :=
  PushCategory.all.flatMap fun c => groupLines ex c R

/-- The text written by `to_server_file`: the lines joined by `"\n"`. -/
def encText (ex : GPath → Bool) (R : PushItems) : String :=
  String.mk (joinCh '\n' (encLines ex R))

/-- `PushItems.to_server_file` (lines 353-380): the written text, or `none`
when some member's `category` is `None` (Python raises `AttributeError` on
`item.category.value` before anything is written). -/
def PushItems.to_server_file (ex : GPath → Bool) (R : PushItems) :
    Option String :=
  if R.all fun i => i.category.isSome then some (encText ex R) else none

/-- The `# Deleted` prefix handling of one decoded line: when the line starts
with `# Deleted`, every occurrence of `"# Deleted: "` is removed and the
deleted flag is set for this line. -/
def stripDeleted (line : List Char) : List Char × Bool :=
  if ("# Deleted".data).isPrefixOf line then
    (replaceAll ("# Deleted: ".data) [] line, true)
  else (line, false)

/-- Decoding of one manifest line (the body of the `for line in lines` loop
of `from_server_file`): empty lines are skipped, `#`-lines switch the current
category, a data line with `#` splits into `path # url` — raising `ValueError`
(modelled as `Except.error`) unless the split has exactly two pieces — and any
other line is a bare path with empty url; parsed items are fed through
`add`. -/
def processLine (isDir : GPath → Bool) (r2g : GPath → GPath)
    (status : Option PushStatus) (pl : Option PushList)
    (st : Option PushCategory × PushItems) (line0 : List Char) :
    Except Unit (Option PushCategory × PushItems) :=
  if line0 = [] then .ok st
  else
    let line := (stripDeleted line0).1
    let deleted := (stripDeleted line0).2
    if (['#']).isPrefixOf line then
      .ok (PushCategory.from_string (String.mk (trimChars (line.drop 1))), st.2)
    else if line.contains '#' then
      match splitCh '#' line with
      | [p, u] =>
        .ok (st.1, PushItems.add isDir r2g st.2
          ⟨pathOfD (trimChars p), (if deleted then some .DELETED else st.1),
           status, String.mk (trimChars u), pl, none, none⟩)
      | _ => .error ()
    else
      .ok (st.1, PushItems.add isDir r2g st.2
          ⟨pathOfD (trimChars line), (if deleted then some .DELETED else st.1),
           status, "", pl, none, none⟩)

/-- Decoding of a list of manifest lines, starting from category `OTHER` and
an empty registry. -/
def decodeLines (isDir : GPath → Bool) (r2g : GPath → GPath)
    (status : Option PushStatus) (pl : Option PushList)
    (lines : List (List Char)) : Except Unit PushItems :=
  (lines.foldlM (processLine isDir r2g status pl)
    (some PushCategory.OTHER, ([] : PushItems))).map Prod.snd

/-- `PushItems.from_server_file` (lines 382-430): split the document on
newlines and decode line by line. -/
def PushItems.from_server_file (isDir : GPath → Bool) (r2g : GPath → GPath)
    (status : Option PushStatus) (pl : Option PushList) (text : String) :
    Except Unit PushItems :=
  decodeLines isDir r2g status pl (splitCh '\n' text.data)

/-- Failure modes of `bump_pushlist`: the `ValueError` of the unsupported
final branch, and a failed external board write (an exception out of
`_run_graphql`). -/
inductive BumpErr where
  | valueError
  | writeFailed
deriving DecidableEq, Repr

deriving instance DecidableEq for Except

/-- Observable outcome of `set_pushlist`/`bump_pushlist` on one item: the
normal or exceptional result, the item's `push_list` field afterwards, and
how many external board writes were performed. -/
structure BumpOut where
  result : Except BumpErr Unit
  push_list : Option PushList
  writes : Nat
deriving DecidableEq, Repr

/-- `PushItem.set_pushlist` (lines 225-241): performs exactly one external
board write (`_run_graphql` with the mutation); only after the write returns
is the in-memory `push_list` field assigned from `listt`; if the write raises
(`writeOk = false`) the field keeps its old value `pl` and the exception
propagates. -/
def PushItem.set_pushlist (pl : Option PushList) (listt : LIST_OPTION_IDS)
    (writeOk : Bool) : BumpOut :=
  if writeOk then
    { result := .ok (), writes := 1,
      push_list := some (match listt with
        | .TO_SANDBOX => PushList.TO_SANDBOX
        | .TO_PRODUCTION => PushList.TO_PRODUCTION
        | .BLOCKED => PushList.BLOCKED) }
  else { result := .error .writeFailed, writes := 1, push_list := pl }

/-- `PushItem.bump_pushlist` (lines 247-255): `None → TO_SANDBOX`,
`TO_SANDBOX → TO_PRODUCTION`, `TO_PRODUCTION` prints and stays (no write),
anything else (only `BLOCKED` remains) raises `ValueError` without any
write. -/
def PushItem.bump_pushlist (pl : Option PushList) (writeOk : Bool) : BumpOut :=
  if pl = none then PushItem.set_pushlist pl .TO_SANDBOX writeOk
  else if pl = some PushList.TO_SANDBOX then
    PushItem.set_pushlist pl .TO_PRODUCTION writeOk
  else if pl = some PushList.TO_PRODUCTION then
    { result := .ok (), push_list := pl, writes := 0 }
  else { result := .error .valueError, push_list := pl, writes := 0 }

/-- Item for the path `ofl/mavenpro`. -/
def itemMavenDir : PushItem :=
  ⟨["ofl", "mavenpro"], some .NEW, some .IN_DEV, "1", none, none, none⟩

/-- Item for the bare top-level path `ofl`. -/
def itemOflRoot : PushItem :=
  ⟨["ofl"], some .NEW, some .IN_DEV, "1", none, none, none⟩

/-- Item for the font binary `ofl/mavenpro/MavenPro[wght].ttf`. -/
def itemMavenFont1 : PushItem :=
  ⟨["ofl", "mavenpro", "MavenPro[wght].ttf"], some .NEW, some .IN_DEV, "1",
   none, none, none⟩

/-- Item for the font binary `ofl/mavenpro/MavenPro-Italic[wght].ttf`. -/
def itemMavenFont2 : PushItem :=
  ⟨["ofl", "mavenpro", "MavenPro-Italic[wght].ttf"], some .NEW, some .IN_DEV,
   "1", none, none, none⟩

/-- Item at the three-segment path `a/b/c` (no normalization rule applies). -/
def itemABC : PushItem :=
  ⟨["a", "b", "c"], some .NEW, some .IN_DEV, "1", none, none, none⟩

/-- Item at the two-segment path `a/b` (no normalization rule applies). -/
def itemAB : PushItem :=
  ⟨["a", "b"], some .NEW, some .IN_DEV, "1", none, none, none⟩

/-- Item whose path `ofl/a.ttf/b.ttf` normalizes to `ofl/a.ttf`, a path that
is itself further truncated (to the discarded one-segment `ofl`) when fed
through `add` again. -/
def itemOflWeird : PushItem :=
  ⟨["ofl", "a.ttf", "b.ttf"], some .NEW, some .IN_DEV, "1", none, none, none⟩

/-- The registry obtained by adding `itemOflWeird` to an empty registry: a
single member at `ofl/a.ttf`. -/
def regWeird : PushItems :=
  PushItems.add noDir gId [] itemOflWeird

/-- CLAIM C1 (code bug).  The spec's invariant says that after every `add` no
member's path is a strict prefix of another member's path, and the code's own
comment says the loop pops members that are children of the incoming item's
path.  Feeding `a/b/c` and then `a/b` through `add` keeps both members, the
first a strict extension of the second: the eviction loop's condition
`str(i.path.parent) in str(i.path)` compares a member with itself (true for
every multi-segment member), so the matched index is always `0`, and the
truthiness test `if to_pop:` treats `0` as false — the loop never pops. -/
theorem C1_ancestor_invariant_violated :
    (PushItems.add noDir gId (PushItems.add noDir gId [] itemABC) itemAB).map
      PushItem.path = [["a", "b", "c"], ["a", "b"]] ∧
    ∃ i ∈ PushItems.add noDir gId (PushItems.add noDir gId [] itemABC) itemAB,
      ∃ j ∈ PushItems.add noDir gId (PushItems.add noDir gId [] itemABC) itemAB,
        i.path ≠ j.path ∧ i.path <+: j.path := by
  refine ⟨by decide, itemAB, by decide, itemABC, by decide, by decide, ?_⟩
  exact ⟨["c"], by decide⟩

/-- CLAIM C2 (confirmed).  Adding `ofl/mavenpro` then `ofl` to an empty
registry leaves only the `ofl/mavenpro` member (the bare `ofl` is discarded by
the one-segment filter), and adding them in the reverse order gives the same
single-member registry. -/
theorem C2_ancestor_pair_order_independent :
    PushItems.add noDir gId (PushItems.add noDir gId [] itemMavenDir)
      itemOflRoot = [itemMavenDir] ∧
    PushItems.add noDir gId (PushItems.add noDir gId [] itemOflRoot)
      itemMavenDir = [itemMavenDir] := by
  exact ⟨by decide, by decide⟩

/-- CLAIM C9 (confirmed).  `bump_pushlist` advances `None → TO_SANDBOX →
TO_PRODUCTION`; a further bump at `TO_PRODUCTION` changes nothing and performs
zero external writes; each state-changing bump performs exactly one external
write, and when that write fails the `push_list` field keeps its old value and
the failure propagates. -/
theorem C9_bump_progression :
    PushItem.bump_pushlist none true =
      ⟨.ok (), some PushList.TO_SANDBOX, 1⟩ ∧
    PushItem.bump_pushlist (some PushList.TO_SANDBOX) true =
      ⟨.ok (), some PushList.TO_PRODUCTION, 1⟩ ∧
    PushItem.bump_pushlist (some PushList.TO_PRODUCTION) true =
      ⟨.ok (), some PushList.TO_PRODUCTION, 0⟩ ∧
    PushItem.bump_pushlist (some PushList.TO_PRODUCTION) false =
      ⟨.ok (), some PushList.TO_PRODUCTION, 0⟩ ∧
    PushItem.bump_pushlist none false =
      ⟨.error .writeFailed, none, 1⟩ ∧
    PushItem.bump_pushlist (some PushList.TO_SANDBOX) false =
      ⟨.error .writeFailed, some PushList.TO_SANDBOX, 1⟩ := by
  decide

/-- CLAIM C10 (confirmed).  `bump_pushlist` on an item whose `push_list` is
`BLOCKED` raises `ValueError` (the final `else` branch), performs no external
write, and leaves the field at `BLOCKED` — whether or not a write would have
succeeded. -/
theorem C10_bump_blocked_raises :
    PushItem.bump_pushlist (some PushList.BLOCKED) true =
      ⟨.error .valueError, some PushList.BLOCKED, 0⟩ ∧
    PushItem.bump_pushlist (some PushList.BLOCKED) false =
      ⟨.error .valueError, some PushList.BLOCKED, 0⟩ := by
  decide

/-- CLAIM C8 counterexample.  `from_server_file` does not accept every line:
a data line with two `#` characters makes `path, url = line.split("#")` raise
`ValueError` (three pieces cannot unpack into two variables). -/
theorem C8_two_hash_line_raises :
    PushItems.from_server_file noDir gId none none "a/b # x # y" =
      Except.error () := by
  decide

/-- CLAIM C3 counterexample.  `regWeird` is a reachable registry (built by
`add`) with one member at `ofl/a.ttf`; subtracting the empty registry should,
per the claim, return that member unchanged, but `__sub__` replays survivors
through `add`, which truncates `ofl/a.ttf` to the discarded one-segment `ofl`
and returns an empty registry. -/
theorem C3_difference_not_plain_filter :
    regWeird = [{ itemOflWeird with path := ["ofl", "a.ttf"] }] ∧
    PushItems.sub noDir gId regWeird [] ≠
      regWeird.filter fun i => !(([] : PushItems).any fun j => j.path == i.path) := by
  exact ⟨by decide, by decide⟩

/-- CLAIM C4 counterexample.  For the reachable registry `regWeird` and an
empty `other`, `__add__` deep-copies `self` and returns its member untouched,
while replaying every member of `self` then `other` through `add` from an
empty registry discards the member (its path re-normalizes to the one-segment
`ofl`): the two results differ. -/
theorem C4_union_not_full_replay :
    PushItems.plus noDir gId regWeird [] = regWeird ∧
    (regWeird ++ []).foldl (PushItems.add noDir gId) [] = [] ∧
    regWeird ≠ [] := by
  exact ⟨by decide, by decide, by decide⟩

/-- Binning ignores whether members of category `BLOCKED` were pre-filtered
away: `to_server_file` skips them itself. -/
theorem binFor_filter_nonblocked (c : PushCategory) (R : PushItems) :
    binFor c (R.filter fun i => !(i.category == some PushCategory.BLOCKED)) =
      binFor c R := by
  unfold binFor
  rw [List.filter_filter]
  apply List.filter_congr
  intro i _
  by_cases hc : c = PushCategory.BLOCKED
  · subst hc; simp
  · by_cases h2 : i.category = some c
    · simp [h2, hc, bne]
    · simp [h2]

/-- The text produced by `to_server_file` does not change when members of
category `BLOCKED` are removed beforehand. -/
theorem encText_skips_blocked (ex : GPath → Bool) (R : PushItems) :
    encText ex (R.filter fun i => !(i.category == some PushCategory.BLOCKED)) =
      encText ex R := by
  have h : (fun c => groupLines ex c
        (R.filter fun i => !(i.category == some PushCategory.BLOCKED))) =
      fun c => groupLines ex c R := by
    funext c
    unfold groupLines
    rw [binFor_filter_nonblocked]
  unfold encText encLines
  rw [h]

/-- The registry of the manifest-grouping example: one `Upgrade` item at `a/b`
with url `45` and one `New` item at `a/c` with url `46`. -/
def regGrouping : PushItems :=
  [⟨["a", "b"], some .UPGRADE, some .IN_DEV, "45", none, none, none⟩,
   ⟨["a", "c"], some .NEW, some .IN_DEV, "46", none, none, none⟩]

/-- CLAIM C6 (confirmed).  `to_server_file` groups members under
`# <CategoryDisplayName>` headings in declaration order, omits empty
categories, sorts a group by path (second conjunct: two `New` members given
out of path order come out sorted), never writes `BLOCKED` members (third
conjunct: pre-removing them does not change the output), and the example
registry with a `New` item at `a/c` (url 46) and an `Upgrade` item at `a/b`
(url 45), both on disk, encodes to exactly the claimed string. -/
theorem C6_manifest_grouping :
    PushItems.to_server_file allExist regGrouping =
      some "# New\na/c # 46\n\n# Upgrade\na/b # 45\n" ∧
    PushItems.to_server_file allExist
      [⟨["a", "c"], some .NEW, some .IN_DEV, "46", none, none, none⟩,
       ⟨["a", "a"], some .NEW, some .IN_DEV, "47", none, none, none⟩] =
      some "# New\na/a # 47\na/c # 46\n" ∧
    ∀ (ex : GPath → Bool) (R : PushItems),
      encText ex (R.filter fun i => !(i.category == some PushCategory.BLOCKED)) =
        encText ex R := by
  exact ⟨by decide, by decide, encText_skips_blocked⟩

/-- CLAIM C7 counterexample.  The claim says the family-file rule truncates to
the immediate child-of-root directory; the code truncates to the parent
directory.  For the four-segment path `ofl/a/b/c.ttf` (which meets all the
claim's conditions) the code yields `ofl/a/b`, not the immediate
child-of-root `ofl/a`. -/
theorem C7_truncation_is_parent_not_child_of_root :
    (PushItems.add noDir gId []
        ⟨["ofl", "a", "b", "c.ttf"], some .NEW, some .IN_DEV, "1",
         none, none, none⟩).map PushItem.path = [["ofl", "a", "b"]] ∧
    (["ofl", "a", "b"] : GPath) ≠ ["ofl", "a"] := by
  exact ⟨by decide, by decide⟩

/-- CLAIM C7 amended (proved).  For every path with no `article` or `static`
segment, with some segment among `ofl`/`ufl`/`apache`/`designers`, and with a
file suffix in `FAMILY_FILE_SUFFIXES`, the normalizer inside `add` truncates
the path to its parent directory (drops exactly the final component) — which
is the family directory itself for the standard three-segment
`root/family/file` layout; in particular adding the two MavenPro font binaries
yields the single member `ofl/mavenpro`. -/
theorem C7_family_file_truncates_to_parent :
    (∀ (isDir : GPath → Bool) (r2g : GPath → GPath) (p : GPath),
      (p.contains "article" || p.contains "static") = false →
      (p.contains "ofl" || p.contains "ufl" || p.contains "apache" ||
        p.contains "designers") = true →
      FAMILY_FILE_SUFFIXES.contains (pySuffix ((p.getLast?).getD "")) = true →
      normalizePath isDir r2g p = some (parentD p)) ∧
    PushItems.add noDir gId (PushItems.add noDir gId [] itemMavenFont1)
      itemMavenFont2 = [{ itemMavenFont2 with path := ["ofl", "mavenpro"] }] := by
  constructor
  · intro isDir r2g p h1 h2 h3
    unfold normalizePath
    rw [h1, h2, h3]
    simp
  · decide

/-- Witness for `C7_family_file_truncates_to_parent`: its hypotheses hold and
its conclusion applies at the concrete path `ofl/x/f.ttf`. -/
theorem C7_family_file_truncates_to_parent_witness :
    normalizePath noDir gId ["ofl", "x", "f.ttf"] = some ["ofl", "x"] := by
  exact C7_family_file_truncates_to_parent.1 noDir gId ["ofl", "x", "f.ttf"]
    (by decide) (by decide) (by decide)

/-- Unfolding of `joinCh` on a cons with a non-empty tail. -/
theorem joinCh_cons (c : Char) (a : List Char) (ls : List (List Char))
    (h : ls ≠ []) : joinCh c (a :: ls) = a ++ c :: joinCh c ls := by
  cases ls with
  | nil => exact absurd rfl h
  | cons b bs => rfl

/-- Appending one more piece to a non-empty join appends a separator and the
piece. -/
theorem joinCh_concat (c : Char) :
    ∀ (ls : List (List Char)) (y : List Char), ls ≠ [] →
      joinCh c (ls ++ [y]) = joinCh c ls ++ c :: y := by
  intro ls
  induction ls with
  | nil => intro y h; exact absurd rfl h
  | cons a as ih =>
    intro y _
    cases as with
    | nil => rfl
    | cons b bs =>
      rw [List.cons_append, joinCh_cons c a ((b :: bs) ++ [y]) (by simp),
        ih y (by simp), joinCh_cons c a (b :: bs) (by simp)]
      simp

/-- The string form of a path with at least two segments extends the string
form of its parent by a slash and the last segment. -/
theorem posixD_concat (l : GPath) (x : String) (h : l ≠ []) :
    posixD (l ++ [x]) = posixD l ++ '/' :: x.data := by
  unfold posixD
  rw [if_neg (by simp), if_neg h, List.map_append]
  exact joinCh_concat '/' (l.map String.data) x.data (by simpa using h)

/-- The parent's string form is a prefix of the path's string form for any
path that does not have exactly one segment. -/
theorem posixD_parent_isPrefix (p : GPath) (h : p.length ≠ 1) :
    (posixD (parentD p)).isPrefixOf (posixD p) = true := by
  by_cases hnil : p = []
  · subst hnil; decide
  · have hdl : p.dropLast.length = p.length - 1 := List.length_dropLast p
    have hpos : 0 < p.length := List.length_pos.mpr hnil
    have hne : p.dropLast ≠ [] := by
      intro hcon
      rw [hcon] at hdl
      simp at hdl
      omega
    have hsplit : p.dropLast ++ [p.getLast hnil] = p :=
      List.dropLast_append_getLast hnil
    rw [List.isPrefixOf_iff_prefix]
    have hgrow : posixD p = posixD (parentD p) ++ '/' :: (p.getLast hnil).data := by
      unfold parentD
      conv_lhs => rw [← hsplit]
      exact posixD_concat _ _ hne
    rw [hgrow]
    exact List.prefix_append _ _

/-- Prefixes are sublists: Python `pat in s` holds when `pat` is a prefix. -/
theorem isSubListOf_of_isPrefixOf (pat l : List Char)
    (h : pat.isPrefixOf l = true) : isSubListOf pat l = true := by
  cases l with
  | nil =>
    cases pat with
    | nil => rfl
    | cons a as => simp [List.isPrefixOf] at h
  | cons x xs => unfold isSubListOf; rw [h]; rfl

/-- Every member whose path does not have exactly one segment satisfies the
`to_pop` condition of `add` (its parent's string form is a substring of its
own string form), so the scan always stops at index `0`. -/
theorem toPopCond_of_len_ne_one (itemPath : GPath) (i : PushItem)
    (h : i.path.length ≠ 1) : toPopCond itemPath i = true := by
  unfold toPopCond
  rw [isSubListOf_of_isPrefixOf _ _ (posixD_parent_isPrefix i.path h)]
  rfl

/-- When the incoming item's path is already a fixed point of the normalizer,
does not have exactly one segment, and collides with no member of `acc` (all
of which avoid one-segment paths), `add` is a plain append. -/
theorem add_append (isDir : GPath → Bool) (r2g : GPath → GPath)
    (acc : PushItems) (item : PushItem)
    (hfix : normalizePath isDir r2g item.path = some item.path)
    (hlen : item.path.length ≠ 1)
    (hacc : ∀ j ∈ acc, j.path.length ≠ 1 ∧ j.path ≠ item.path) :
    PushItems.add isDir r2g acc item = acc ++ [item] := by
  unfold PushItems.add
  rw [hfix]
  simp only [if_neg hlen]
  have heta : { item with path := item.path } = item := rfl
  rw [heta]
  have hfind1 : acc.findIdx? (fun i => i.path == item.path) = none := by
    rw [List.findIdx?_eq_none_iff]
    intro j hj
    simpa using (hacc j hj).2
  rw [hfind1]
  cases acc with
  | nil => rfl
  | cons m rest =>
    have hm : toPopCond item.path m = true :=
      toPopCond_of_len_ne_one item.path m (hacc m (by simp)).1
    rw [List.findIdx?_cons, if_pos hm]
    rfl

/-- Replaying a list of items whose paths are fixed points of the normalizer
(and avoid one-segment paths, and are pairwise distinct and distinct from the
accumulator's paths) through `add` appends them in order. -/
theorem foldl_add_fixed (isDir : GPath → Bool) (r2g : GPath → GPath) :
    ∀ (L acc : PushItems),
      (∀ i ∈ L, normalizePath isDir r2g i.path = some i.path ∧
        i.path.length ≠ 1) →
      (∀ j ∈ acc, j.path.length ≠ 1) →
      (∀ i ∈ L, ∀ j ∈ acc, j.path ≠ i.path) →
      List.Pairwise (fun a b => a.path ≠ b.path) L →
      L.foldl (PushItems.add isDir r2g) acc = acc ++ L := by
  intro L
  induction L with
  | nil => intro acc _ _ _ _; simp
  | cons i L ih =>
    intro acc hL hacc hsep hpw
    have hi := hL i (by simp)
    have hstep : PushItems.add isDir r2g acc i = acc ++ [i] :=
      add_append isDir r2g acc i hi.1 hi.2 fun j hj =>
        ⟨hacc j hj, hsep i (by simp) j hj⟩
    have hrest : L.foldl (PushItems.add isDir r2g) (acc ++ [i]) =
        (acc ++ [i]) ++ L := by
      apply ih (acc ++ [i])
      · intro x hx; exact hL x (by simp [hx])
      · intro j hj
        rcases List.mem_append.mp hj with hj1 | hj2
        · exact hacc j hj1
        · rw [List.mem_singleton.mp hj2]; exact hi.2
      · intro x hx j hj
        rcases List.mem_append.mp hj with hj1 | hj2
        · exact hsep x (by simp [hx]) j hj1
        · rw [List.mem_singleton.mp hj2]
          exact (List.pairwise_cons.mp hpw).1 x hx
      · exact (List.pairwise_cons.mp hpw).2
    rw [List.foldl_cons, hstep, hrest, List.append_assoc]
    rfl

/-- CLAIM C3 amended (proved).  `__sub__` keeps the members of `self` whose
path equals no member of `other`'s path, then replays the survivors through
`add` on a fresh registry; whenever the members of `self` have
normalizer-fixed, non-one-segment, pairwise-distinct paths, the replay is the
identity and the result is exactly the filtered subsequence, unchanged and in
order. -/
theorem C3_difference_replay (isDir : GPath → Bool) (r2g : GPath → GPath)
    (A B : PushItems)
    (hA : ∀ i ∈ A, normalizePath isDir r2g i.path = some i.path ∧
      i.path.length ≠ 1)
    (hpw : List.Pairwise (fun a b => a.path ≠ b.path) A) :
    PushItems.sub isDir r2g A B =
      A.filter fun i => !(B.any fun j => j.path == i.path) := by
  unfold PushItems.sub
  rw [foldl_add_fixed isDir r2g _ []
    (fun i hi => hA i (List.mem_filter.mp hi).1)
    (by intro j hj; exact absurd hj (List.not_mem_nil j))
    (by intro x _ j hj; exact absurd hj (List.not_mem_nil j))
    (hpw.filter _)]
  rfl

/-- Witness for `C3_difference_replay` at the concrete registries
`[a/b, a/b/c]` and `[ofl/mavenpro]`. -/
theorem C3_difference_replay_witness :
    PushItems.sub noDir gId [itemAB, itemABC] [itemMavenDir] =
      ([itemAB, itemABC] : PushItems).filter
        fun i => !([itemMavenDir].any fun j => j.path == i.path) :=
  C3_difference_replay noDir gId [itemAB, itemABC] [itemMavenDir]
    (by decide) (by decide)

/-- CLAIM C4 amended (proved).  `__add__` deep-copies `self` and replays only
the members of `other` through `add` (so members of `other` win conflicts);
whenever `self`'s members have normalizer-fixed, non-one-segment,
pairwise-distinct paths — in particular whenever replaying `self` from an
empty registry reproduces `self` — this equals the full replay of `self` then
`other` from an empty registry, as the claim states. -/
theorem C4_union_replay (isDir : GPath → Bool) (r2g : GPath → GPath)
    (A B : PushItems)
    (hA : ∀ i ∈ A, normalizePath isDir r2g i.path = some i.path ∧
      i.path.length ≠ 1)
    (hpw : List.Pairwise (fun a b => a.path ≠ b.path) A) :
    PushItems.plus isDir r2g A B =
      (A ++ B).foldl (PushItems.add isDir r2g) [] := by
  rw [List.foldl_append]
  rw [foldl_add_fixed isDir r2g A [] hA
    (by intro j hj; exact absurd hj (List.not_mem_nil j))
    (by intro x _ j hj; exact absurd hj (List.not_mem_nil j)) hpw]
  rfl

/-- Witness for `C4_union_replay` at the concrete registries `[a/b]` and
`[ofl/mavenpro, a/b]`. -/
theorem C4_union_replay_witness :
    PushItems.plus noDir gId [itemAB] [itemMavenDir, itemAB] =
      ([itemAB] ++ [itemMavenDir, itemAB]).foldl (PushItems.add noDir gId) [] :=
  C4_union_replay noDir gId [itemAB] [itemMavenDir, itemAB]
    (by decide) (by decide)

/-- A single manifest line is decoded without error whenever (after the
`# Deleted` stripping) it contains no `#`, or its `#`-split has exactly two
pieces.  The only failure point of the loop body is the two-variable unpacking
of `line.split("#")`. -/
theorem processLine_ok (isDir : GPath → Bool) (r2g : GPath → GPath)
    (status : Option PushStatus) (pl : Option PushList)
    (st : Option PushCategory × PushItems) (line : List Char)
    (h : ((stripDeleted line).1.contains '#') = false ∨
      (splitCh '#' (stripDeleted line).1).length = 2) :
    ∃ st2, processLine isDir r2g status pl st line = .ok st2 := by
  unfold processLine
  by_cases h0 : line = []
  · exact ⟨st, by rw [if_pos h0]⟩
  rw [if_neg h0]
  by_cases h1 : (['#']).isPrefixOf (stripDeleted line).1
  · exact ⟨_, by rw [if_pos h1]⟩
  rw [if_neg h1]
  by_cases h2 : (stripDeleted line).1.contains '#'
  · rw [if_pos h2]
    rcases h with hfalse | hlen
    · rw [h2] at hfalse; cases hfalse
    · cases hs : splitCh '#' (stripDeleted line).1 with
      | nil => rw [hs] at hlen; cases hlen
      | cons p rest =>
        cases rest with
        | nil => rw [hs] at hlen; simp at hlen
        | cons u rest2 =>
          cases rest2 with
          | nil => exact ⟨_, rfl⟩
          | cons v rest3 => rw [hs] at hlen; simp at hlen
  · exact ⟨_, by rw [if_neg h2]⟩

/-- CLAIM C8 amended (proved).  `from_server_file` never fails on a document
all of whose lines, after `# Deleted` stripping, either contain no `#` or
split on `#` into exactly two pieces; a data line with two or more `#`
characters, however, raises `ValueError` (see the counterexample theorem). -/
theorem C8_decode_accepts_single_hash_lines (isDir : GPath → Bool)
    (r2g : GPath → GPath) (status : Option PushStatus) (pl : Option PushList)
    (text : String)
    (h : ∀ line ∈ splitCh '\n' text.data,
      ((stripDeleted line).1.contains '#') = false ∨
      (splitCh '#' (stripDeleted line).1).length = 2) :
    ∃ R, PushItems.from_server_file isDir r2g status pl text = .ok R := by
  unfold PushItems.from_server_file decodeLines
  have main : ∀ (lines : List (List Char)) (st : Option PushCategory × PushItems),
      (∀ line ∈ lines, ((stripDeleted line).1.contains '#') = false ∨
        (splitCh '#' (stripDeleted line).1).length = 2) →
      ∃ st2, lines.foldlM (processLine isDir r2g status pl) st = .ok st2 := by
    intro lines
    induction lines with
    | nil => intro st _; exact ⟨st, rfl⟩
    | cons l ls ih =>
      intro st hall
      obtain ⟨st1, hst1⟩ :=
        processLine_ok isDir r2g status pl st l (hall l (by simp))
      obtain ⟨st2, hst2⟩ := ih st1 fun x hx => hall x (by simp [hx])
      refine ⟨st2, ?_⟩
      rw [List.foldlM_cons, hst1]
      simpa using hst2
  obtain ⟨st2, hst2⟩ := main (splitCh '\n' text.data)
    (some PushCategory.OTHER, ([] : PushItems)) h
  exact ⟨st2.2, by rw [hst2]; rfl⟩

/-- Witness for `C8_decode_accepts_single_hash_lines` at a concrete document
with a heading, a normal data line, a bare-path line, and a deleted marker. -/
theorem C8_decode_accepts_single_hash_lines_witness :
    ∃ R, PushItems.from_server_file noDir gId none none
      "# New\nofl/noto # 2\nbare/path\n# Deleted: a/b # 7" = .ok R :=
  C8_decode_accepts_single_hash_lines noDir gId none none
    "# New\nofl/noto # 2\nbare/path\n# Deleted: a/b # 7" (by decide)

/-- The logical content of a member as recorded by the manifest: its path,
category and url. -/
def triple (i : PushItem) : GPath × Option PushCategory × String :=
  (i.path, i.category, i.url)

/-- The item that `from_server_file` constructs for a parsed data line of a
member `i`: same path, category and url, with the caller-supplied status and
push list and defaulted `merged`/`id_`. -/
def decItem (status : Option PushStatus) (pl : Option PushList)
    (i : PushItem) : PushItem :=
  ⟨i.path, i.category, status, i.url, pl, none, none⟩

/-- The sorted, deduplicated bin of one category group of `to_server_file`. -/
def binSorted (c : PushCategory) (R : PushItems) : PushItems :=
  sortByPath (dedupByPath (binFor c R))

/-- The registry reconstructed by decoding an encoded registry: the bins in
declaration order, members re-tagged with the caller-supplied status and push
list. -/
def grouped (status : Option PushStatus) (pl : Option PushList)
    (R : PushItems) : PushItems :=
  PushCategory.all.flatMap fun c => (binSorted c R).map (decItem status pl)

/-- A path segment that survives the codec unchanged: non-empty, not `.`, and
free of `/`, `#`, newlines and whitespace. -/
def GoodSeg (s : String) : Prop :=
  s.data ≠ [] ∧ s ≠ "." ∧ '/' ∉ s.data ∧ '#' ∉ s.data ∧ '\n' ∉ s.data ∧
    ∀ ch ∈ s.data, ¬ ch.isWhitespace

instance (s : String) : Decidable (GoodSeg s) := by
  unfold GoodSeg; infer_instance

/-- A member on which the encode/decode round trip is exact: at least two
well-formed segments, a path that is a fixed point of the normalizer, a
`#`-free, newline-free, strip-stable url, present on disk, and a known,
non-`BLOCKED` category. -/
def GoodItem (isDir : GPath → Bool) (r2g : GPath → GPath) (ex : GPath → Bool)
    (i : PushItem) : Prop :=
  2 ≤ i.path.length ∧ (∀ s ∈ i.path, GoodSeg s) ∧
  normalizePath isDir r2g i.path = some i.path ∧
  '#' ∉ i.url.data ∧ '\n' ∉ i.url.data ∧ trimChars i.url.data = i.url.data ∧
  ex i.path = true ∧ i.category ≠ none ∧ i.category ≠ some PushCategory.BLOCKED

instance (isDir : GPath → Bool) (r2g : GPath → GPath) (ex : GPath → Bool)
    (i : PushItem) : Decidable (GoodItem isDir r2g ex i) := by
  unfold GoodItem; infer_instance

/-- Unfolding of `splitCh` on a cons, given the split of the tail. -/
theorem splitCh_cons_eq (c x : Char) (xs y : List Char) (ys : List (List Char))
    (h : splitCh c xs = y :: ys) :
    splitCh c (x :: xs) =
      if x = c then [] :: y :: ys else (x :: y) :: ys := by
  unfold splitCh
  rw [h]

/-- `splitCh` never returns an empty list of pieces. -/
theorem splitCh_ne_nil (c : Char) (l : List Char) : splitCh c l ≠ [] := by
  induction l with
  | nil => simp [splitCh]
  | cons x xs ih =>
    cases h : splitCh c xs with
    | nil => exact absurd h ih
    | cons y ys =>
      rw [splitCh_cons_eq c x xs y ys h]
      by_cases hx : x = c
      · rw [if_pos hx]; simp
      · rw [if_neg hx]; simp

/-- Splitting a list that does not contain the separator yields the one-piece
split. -/
theorem splitCh_of_not_mem (c : Char) :
    ∀ (l : List Char), c ∉ l → splitCh c l = [l] := by
  intro l
  induction l with
  | nil => intro _; rfl
  | cons x xs ih =>
    intro h
    rw [splitCh_cons_eq c x xs xs [] (ih fun hx => h (by simp [hx]))]
    rw [if_neg fun hx => h (by simp [hx])]

/-- Splitting off the piece before the first separator. -/
theorem splitCh_append_cons (c : Char) :
    ∀ (l₁ rest : List Char), c ∉ l₁ →
      splitCh c (l₁ ++ c :: rest) = l₁ :: splitCh c rest := by
  intro l₁
  induction l₁ with
  | nil =>
    intro rest _
    cases h : splitCh c rest with
    | nil => exact absurd h (splitCh_ne_nil c rest)
    | cons y ys =>
      show splitCh c (c :: rest) = [] :: y :: ys
      rw [splitCh_cons_eq c c rest y ys h, if_pos rfl]
  | cons x xs ih =>
    intro rest h
    have hx : x ≠ c := fun hx => h (by simp [hx])
    show splitCh c (x :: (xs ++ c :: rest)) = (x :: xs) :: splitCh c rest
    cases hr : splitCh c rest with
    | nil => exact absurd hr (splitCh_ne_nil c rest)
    | cons y ys =>
      have hmid : splitCh c (xs ++ c :: rest) = xs :: y :: ys := by
        rw [ih rest fun hm => h (by simp [hm]), hr]
      rw [splitCh_cons_eq c x (xs ++ c :: rest) xs (y :: ys) hmid, if_neg hx]

/-- Splitting a separator-free join recovers the pieces. -/
theorem splitCh_joinCh (c : Char) :
    ∀ (ls : List (List Char)), ls ≠ [] → (∀ l ∈ ls, c ∉ l) →
      splitCh c (joinCh c ls) = ls := by
  intro ls
  induction ls with
  | nil => intro h _; exact absurd rfl h
  | cons a as ih =>
    intro _ hmem
    cases as with
    | nil => exact splitCh_of_not_mem c a (hmem a (by simp))
    | cons b bs =>
      rw [joinCh_cons c a (b :: bs) (by simp)]
      rw [splitCh_append_cons c a (joinCh c (b :: bs)) (hmem a (by simp))]
      rw [ih (by simp) fun l hl => hmem l (by simp [hl])]

/-- Characters of a join come from the pieces or are the separator. -/
theorem mem_joinCh (c : Char) :
    ∀ (ls : List (List Char)) (ch : Char), ch ∈ joinCh c ls →
      (∃ l ∈ ls, ch ∈ l) ∨ ch = c := by
  intro ls
  induction ls with
  | nil => intro ch h; cases h
  | cons a as ih =>
    intro ch h
    cases as with
    | nil => exact Or.inl ⟨a, by simp, h⟩
    | cons b bs =>
      rw [joinCh_cons c a (b :: bs) (by simp)] at h
      rcases List.mem_append.mp h with ha | hrest
      · exact Or.inl ⟨a, by simp, ha⟩
      · rcases List.mem_cons.mp hrest with hc | hj
        · exact Or.inr hc
        · rcases ih ch hj with ⟨l, hl, hchl⟩ | hc
          · exact Or.inl ⟨l, by simp [hl], hchl⟩
          · exact Or.inr hc

/-- Characters of a non-empty path's string form come from its segments or
are the slash. -/
theorem mem_posixD (p : GPath) (hp : p ≠ []) (ch : Char)
    (h : ch ∈ posixD p) : (∃ s ∈ p, ch ∈ s.data) ∨ ch = '/' := by
  unfold posixD at h
  rw [if_neg hp] at h
  rcases mem_joinCh '/' (p.map String.data) ch h with ⟨l, hl, hchl⟩ | hc
  · rcases List.mem_map.mp hl with ⟨s, hs, rfl⟩
    exact Or.inl ⟨s, hs, hchl⟩
  · exact Or.inr hc

/-- The string form of a path whose head segment is `s` starts with the
characters of `s`. -/
theorem posixD_cons_eq (s : String) (p' : GPath) :
    ∃ r, posixD (s :: p') = s.data ++ r := by
  cases p' with
  | nil => exact ⟨[], by simp [posixD, joinCh]⟩
  | cons t ts =>
    refine ⟨'/' :: joinCh '/' ((t :: ts).map String.data), ?_⟩
    unfold posixD
    rw [if_neg (by simp)]
    simp only [List.map_cons]
    rw [joinCh_cons '/' s.data (t.data :: (ts.map String.data)) (by simp)]

/-- A list with no whitespace characters is unchanged by `dropWhile`. -/
theorem dropWhile_ws_eq_self (l : List Char)
    (h : ∀ ch ∈ l, ¬ ch.isWhitespace) :
    l.dropWhile Char.isWhitespace = l := by
  cases l with
  | nil => rfl
  | cons a l' => exact List.dropWhile_cons_of_neg (by simpa using h a (by simp))

/-- A list with no whitespace characters is strip-stable. -/
theorem trimChars_eq_self (l : List Char)
    (h : ∀ ch ∈ l, ¬ ch.isWhitespace) : trimChars l = l := by
  unfold trimChars
  rw [dropWhile_ws_eq_self l h,
    dropWhile_ws_eq_self l.reverse (fun ch hch => h ch (List.mem_reverse.mp hch)),
    List.reverse_reverse]

/-- Stripping a whitespace-free list with one trailing space recovers the
list. -/
theorem trimChars_append_space (l : List Char)
    (h : ∀ ch ∈ l, ¬ ch.isWhitespace) : trimChars (l ++ [' ']) = l := by
  unfold trimChars
  cases l with
  | nil => rfl
  | cons a l' =>
    rw [List.cons_append,
      List.dropWhile_cons_of_neg (by simpa using h a (by simp))]
    rw [show (a :: (l' ++ [' '])).reverse = ' ' :: (a :: l').reverse by simp]
    rw [List.dropWhile_cons_of_pos (by simp)]
    rw [dropWhile_ws_eq_self (a :: l').reverse
      (fun ch hch => h ch (List.mem_reverse.mp hch)), List.reverse_reverse]

/-- Stripping one leading space strips the rest. -/
theorem trimChars_cons_space (l : List Char) :
    trimChars (' ' :: l) = trimChars l := by
  unfold trimChars
  rw [List.dropWhile_cons_of_pos (by simp)]

/-- Rebuilding a string from its characters is the identity. -/
theorem String.mk_data (s : String) : String.mk s.data = s := by
  cases s
  rfl

/-- Rebuilding every string of a list from its characters is the identity. -/
theorem map_mk_data (q : GPath) : q.map (String.mk ∘ String.data) = q := by
  induction q with
  | nil => rfl
  | cons s q ih =>
    simp only [List.map_cons, Function.comp_apply, String.mk_data, ih]

/-- Parsing back the string form of a path with well-formed segments recovers
the path (for the empty path, `Path(".")` parses back to the empty path). -/
theorem pathOfD_posixD (p : GPath) (h : ∀ s ∈ p, GoodSeg s) :
    pathOfD (posixD p) = p := by
  by_cases hp : p = []
  · subst hp; decide
  · unfold pathOfD posixD
    rw [if_neg hp]
    rw [splitCh_joinCh '/' (p.map String.data) (by simpa using hp)
      (by
        intro l hl
        rcases List.mem_map.mp hl with ⟨s, hs, rfl⟩
        exact (h s hs).2.2.1)]
    rw [List.map_map, map_mk_data]
    rw [List.filter_eq_self]
    intro s hs
    have hgs := h s hs
    have h1 : s ≠ "" := by
      intro hcon
      exact hgs.1 (by rw [hcon])
    simp [h1, hgs.2.1]

/-- A prefix check fails when the first characters differ. -/
theorem isPrefixOf_cons_of_ne (a b : Char) (l m : List Char) (hab : a ≠ b) :
    (a :: l).isPrefixOf (b :: m) = false := by
  simp [List.isPrefixOf, hab]

/-- A character other than the slash that occurs in no segment does not occur
in the path's string form. -/
theorem not_mem_posixD (p : GPath) (hp : p ≠ []) (ch : Char) (hch : ch ≠ '/')
    (h : ∀ s ∈ p, ch ∉ s.data) : ch ∉ posixD p := by
  intro hmem
  rcases mem_posixD p hp ch hmem with ⟨s, hs, hin⟩ | heq
  · exact h s hs hin
  · exact hch heq

/-- The string form of a path of well-formed segments contains no whitespace. -/
theorem posixD_no_ws (p : GPath) (hp : p ≠ []) (hsegs : ∀ s ∈ p, GoodSeg s) :
    ∀ ch ∈ posixD p, ¬ ch.isWhitespace := by
  intro ch hch
  rcases mem_posixD p hp ch hch with ⟨s, hs, hin⟩ | heq
  · exact (hsegs s hs).2.2.2.2.2 ch hin
  · rw [heq]; decide

/-- An empty manifest line leaves the decoding state unchanged. -/
theorem processLine_nil (isDir : GPath → Bool) (r2g : GPath → GPath)
    (status : Option PushStatus) (pl : Option PushList)
    (st : Option PushCategory × PushItems) :
    processLine isDir r2g status pl st [] = .ok st := rfl

/-- A `# <CategoryDisplayName>` heading line switches the current category to
that member (also for `# Deleted`, whose stripped form is unchanged because
the heading carries no `": "`). -/
theorem processLine_heading (isDir : GPath → Bool) (r2g : GPath → GPath)
    (status : Option PushStatus) (pl : Option PushList)
    (st : Option PushCategory × PushItems) (c : PushCategory) :
    processLine isDir r2g status pl st
      ("# ".data ++ (PushCategory.value c).data) = .ok (some c, st.2) := by
  cases c <;> rfl

/-- Decoding the line that `to_server_file` writes for a good, on-disk member
appends exactly the reconstructed member (same path, category and url;
caller-supplied status and push list) to the registry being built. -/
theorem processLine_itemLine (isDir : GPath → Bool) (r2g : GPath → GPath)
    (ex : GPath → Bool) (status : Option PushStatus) (pl : Option PushList)
    (c : PushCategory) (acc : PushItems) (i : PushItem)
    (hg : GoodItem isDir r2g ex i) (hcat : i.category = some c)
    (hacc : ∀ j ∈ acc, j.path.length ≠ 1 ∧ j.path ≠ i.path) :
    processLine isDir r2g status pl (some c, acc) (itemLine ex i) =
      .ok (some c, acc ++ [decItem status pl i]) := by
  obtain ⟨hlen2, hsegs, hfix, hurlh, hurln, hurlt, hex, hcne, hcnb⟩ := hg
  have hpne : i.path ≠ [] := by
    intro hcon; rw [hcon] at hlen2; simp at hlen2
  have hline : itemLine ex i =
      posixD i.path ++ ' ' :: '#' :: ' ' :: i.url.data := by
    unfold itemLine
    rw [if_pos hex, List.append_assoc]
    rfl
  obtain ⟨s₁, p', hp⟩ : ∃ s₁ p', i.path = s₁ :: p' := by
    cases hpp : i.path with
    | nil => exact absurd hpp hpne
    | cons a b => exact ⟨a, b, rfl⟩
  obtain ⟨r, hr⟩ := posixD_cons_eq s₁ p'
  have hs₁ : GoodSeg s₁ := hsegs s₁ (by rw [hp]; simp)
  obtain ⟨ch₀, t₀, hs₁d⟩ : ∃ ch₀ t₀, s₁.data = ch₀ :: t₀ := by
    cases hd : s₁.data with
    | nil => exact absurd hd hs₁.1
    | cons a b => exact ⟨a, b, rfl⟩
  have hch₀ : ch₀ ≠ '#' := by
    intro hcon
    exact hs₁.2.2.2.1 (by rw [← hcon, hs₁d]; simp)
  have hpos : posixD i.path = ch₀ :: (t₀ ++ r) := by
    rw [hp, hr, hs₁d]; simp
  have hposhash : '#' ∉ posixD i.path := by
    apply not_mem_posixD i.path hpne '#' (by decide)
    intro s hs
    exact (hsegs s hs).2.2.2.1
  have hposws : ∀ ch ∈ posixD i.path, ¬ ch.isWhitespace :=
    posixD_no_ws i.path hpne hsegs
  -- the line as a non-empty cons
  have hline2 : itemLine ex i =
      ch₀ :: (t₀ ++ r ++ ' ' :: '#' :: ' ' :: i.url.data) := by
    rw [hline, hpos]; simp
  -- the # Deleted strip does not fire
  have hstrip : stripDeleted (itemLine ex i) = (itemLine ex i, false) := by
    unfold stripDeleted
    rw [if_neg]
    rw [hline2]
    show ¬ (('#' :: " Deleted".data).isPrefixOf _ = true)
    rw [isPrefixOf_cons_of_ne '#' ch₀ _ _ (Ne.symm hch₀)]
    simp
  -- the category-heading branch does not fire
  have hhash1 : (['#']).isPrefixOf (itemLine ex i) = false := by
    rw [hline2]
    exact isPrefixOf_cons_of_ne '#' ch₀ _ _ (Ne.symm hch₀)
  -- the line does contain a #
  have hcont : (itemLine ex i).contains '#' = true := by
    apply List.elem_eq_true_of_mem
    rw [hline]
    simp
  -- the split into path part and url part
  have hsplit : splitCh '#' (itemLine ex i) =
      [posixD i.path ++ [' '], ' ' :: i.url.data] := by
    rw [hline,
      show posixD i.path ++ ' ' :: '#' :: ' ' :: i.url.data =
        (posixD i.path ++ [' ']) ++ '#' :: (' ' :: i.url.data) by simp]
    rw [splitCh_append_cons '#' _ _
      (by
        intro hmem
        rcases List.mem_append.mp hmem with hin | hin
        · exact hposhash hin
        · simp at hin)]
    rw [splitCh_of_not_mem '#' _
      (by
        intro hmem
        rcases List.mem_cons.mp hmem with hin | hin
        · simp at hin
        · exact hurlh hin)]
  -- the two trims
  have htrim1 : trimChars (posixD i.path ++ [' ']) = posixD i.path :=
    trimChars_append_space _ hposws
  have htrim2 : trimChars (' ' :: i.url.data) = i.url.data := by
    rw [trimChars_cons_space, hurlt]
  -- assemble
  unfold processLine
  rw [if_neg (by rw [hline2]; simp)]
  rw [hstrip]
  simp only [hhash1, Bool.false_eq_true, if_false, hcont, if_true, hsplit]
  rw [htrim1, htrim2]
  rw [pathOfD_posixD i.path hsegs, String.mk_data]
  show Except.ok (some c, PushItems.add isDir r2g acc
    ⟨i.path, some c, status, i.url, pl, none, none⟩) = _
  rw [← hcat]
  show Except.ok (i.category, PushItems.add isDir r2g acc
      (decItem status pl i)) =
    Except.ok (i.category, acc ++ [decItem status pl i])
  rw [add_append isDir r2g acc (decItem status pl i) hfix
    (by show i.path.length ≠ 1; omega) hacc]

/-- The path of the reconstructed member is the original member's path. -/
theorem decItem_path (status : Option PushStatus) (pl : Option PushList)
    (i : PushItem) : (decItem status pl i).path = i.path := rfl

/-- `groupLines` phrased through `binSorted`. -/
theorem groupLines_eq (ex : GPath → Bool) (c : PushCategory) (R : PushItems) :
    groupLines ex c R =
      if (binSorted c R).isEmpty then []
      else (("# ".data ++ (PushCategory.value c).data) ::
        (binSorted c R).map (itemLine ex)) ++ [[]] := rfl

/-- Decoding the member lines of one category group appends the reconstructed
members in order. -/
theorem foldlM_itemLines (isDir : GPath → Bool) (r2g : GPath → GPath)
    (ex : GPath → Bool) (status : Option PushStatus) (pl : Option PushList)
    (c : PushCategory) :
    ∀ (bin acc : PushItems),
      (∀ i ∈ bin, GoodItem isDir r2g ex i ∧ i.category = some c) →
      List.Pairwise (fun a b => a.path ≠ b.path) bin →
      (∀ i ∈ bin, ∀ j ∈ acc, j.path.length ≠ 1 ∧ j.path ≠ i.path) →
      (bin.map (itemLine ex)).foldlM (processLine isDir r2g status pl)
          (some c, acc) =
        .ok (some c, acc ++ bin.map (decItem status pl)) := by
  intro bin
  induction bin with
  | nil => intro acc _ _ _; simp; rfl
  | cons i bin ih =>
    intro acc hgood hpw hacc
    rw [List.map_cons, List.foldlM_cons,
      processLine_itemLine isDir r2g ex status pl c acc i
        (hgood i (by simp)).1 (hgood i (by simp)).2 (hacc i (by simp))]
    have hnext := ih (acc ++ [decItem status pl i])
      (fun x hx => hgood x (by simp [hx]))
      (List.pairwise_cons.mp hpw).2
      (by
        intro x hx j hj
        rcases List.mem_append.mp hj with hj1 | hj2
        · exact hacc x (by simp [hx]) j hj1
        · rw [List.mem_singleton.mp hj2]
          refine ⟨?_, ?_⟩
          · have h2 := (hgood i (by simp)).1.1
            show i.path.length ≠ 1
            omega
          · show i.path ≠ x.path
            exact (List.pairwise_cons.mp hpw).1 x hx)
    show (bin.map (itemLine ex)).foldlM (processLine isDir r2g status pl)
      (some c, acc ++ [decItem status pl i]) = _
    rw [hnext]
    simp

/-- Decoding the concatenated category groups of an encoded registry, from any
starting category, appends all reconstructed bins in declaration order. -/
theorem foldlM_groups (isDir : GPath → Bool) (r2g : GPath → GPath)
    (ex : GPath → Bool) (status : Option PushStatus) (pl : Option PushList)
    (R : PushItems) :
    ∀ (cs : List PushCategory) (acc : PushItems) (cat0 : Option PushCategory),
      cs.Nodup →
      (∀ c ∈ cs, ∀ i ∈ binSorted c R,
        GoodItem isDir r2g ex i ∧ i.category = some c) →
      (∀ c ∈ cs, List.Pairwise (fun a b => a.path ≠ b.path) (binSorted c R)) →
      (∀ c ∈ cs, ∀ c' ∈ cs, c ≠ c' →
        ∀ i ∈ binSorted c R, ∀ j ∈ binSorted c' R, i.path ≠ j.path) →
      (∀ c ∈ cs, ∀ i ∈ binSorted c R, ∀ j ∈ acc,
        j.path.length ≠ 1 ∧ j.path ≠ i.path) →
      ∃ catF, (cs.flatMap fun c => groupLines ex c R).foldlM
          (processLine isDir r2g status pl) (cat0, acc) =
        .ok (catF, acc ++ cs.flatMap
          fun c => (binSorted c R).map (decItem status pl)) := by
  intro cs
  induction cs with
  | nil => intro acc cat0 _ _ _ _ _; exact ⟨cat0, by simp; rfl⟩
  | cons c cs ih =>
    intro acc cat0 hnd hgood hpw hcross hacc
    rw [List.flatMap_cons, List.flatMap_cons, groupLines_eq]
    by_cases hbin : (binSorted c R).isEmpty
    · have hb : binSorted c R = [] := by
        cases hbb : binSorted c R
        · rfl
        · rw [hbb] at hbin; simp at hbin
      rw [if_pos hbin, List.nil_append, hb, List.map_nil, List.nil_append]
      exact ih acc cat0 (List.nodup_cons.mp hnd).2
        (fun c' hc' => hgood c' (by simp [hc']))
        (fun c' hc' => hpw c' (by simp [hc']))
        (fun c' hc' c'' hc'' => hcross c' (by simp [hc']) c'' (by simp [hc'']))
        (fun c' hc' => hacc c' (by simp [hc']))
    · rw [if_neg hbin]
      have hcnotin : c ∉ cs := (List.nodup_cons.mp hnd).1
      obtain ⟨catF, hF⟩ := ih
        (acc ++ (binSorted c R).map (decItem status pl)) (some c)
        (List.nodup_cons.mp hnd).2
        (fun c' hc' => hgood c' (by simp [hc']))
        (fun c' hc' => hpw c' (by simp [hc']))
        (fun c' hc' c'' hc'' => hcross c' (by simp [hc']) c'' (by simp [hc'']))
        (by
          intro c' hc' i hi j hj
          rcases List.mem_append.mp hj with hj1 | hj2
          · exact hacc c' (by simp [hc']) i hi j hj1
          · rcases List.mem_map.mp hj2 with ⟨x, hx, rfl⟩
            rw [decItem_path]
            have hgx := hgood c (by simp) x hx
            refine ⟨?_, ?_⟩
            · have h2 := hgx.1.1
              omega
            · exact hcross c (by simp) c' (by simp [hc'])
                (fun hcc => hcnotin (hcc ▸ hc')) x hx i hi)
      refine ⟨catF, ?_⟩
      rw [show ((("# ".data ++ (PushCategory.value c).data) ::
          (binSorted c R).map (itemLine ex)) ++ [[]]) ++
          (cs.flatMap fun c' => groupLines ex c' R) =
        ("# ".data ++ (PushCategory.value c).data) ::
          ((binSorted c R).map (itemLine ex) ++ ([] ::
            cs.flatMap fun c' => groupLines ex c' R)) by simp]
      rw [List.foldlM_cons,
        processLine_heading isDir r2g status pl (cat0, acc) c]
      show ((binSorted c R).map (itemLine ex) ++ ([] ::
          cs.flatMap fun c' => groupLines ex c' R)).foldlM
        (processLine isDir r2g status pl) (some c, acc) = _
      rw [List.foldlM_append]
      rw [foldlM_itemLines isDir r2g ex status pl c (binSorted c R) acc
        (hgood c (by simp)) (hpw c (by simp))
        (fun i hi j hj => hacc c (by simp) i hi j hj)]
      show ([] :: cs.flatMap fun c' => groupLines ex c' R).foldlM
        (processLine isDir r2g status pl)
        (some c, acc ++ (binSorted c R).map (decItem status pl)) = _
      rw [List.foldlM_cons, processLine_nil]
      show (cs.flatMap fun c' => groupLines ex c' R).foldlM
        (processLine isDir r2g status pl)
        (some c, acc ++ (binSorted c R).map (decItem status pl)) = _
      rw [hF]
      simp

/-- Deduplication yields a sublist. -/
theorem dedupByPathGo_sublist :
    ∀ (seen : List GPath) (l : PushItems), (dedupByPathGo seen l).Sublist l := by
  intro seen l
  induction l generalizing seen with
  | nil => simp [dedupByPathGo]
  | cons i rest ih =>
    unfold dedupByPathGo
    by_cases hs : seen.contains i.path
    · rw [if_pos hs]
      exact (ih seen).cons i
    · rw [if_neg hs]
      exact (ih (i.path :: seen)).cons₂ i

/-- Members of a sorted bin are members of the registry with the bin's
category. -/
theorem mem_binSorted (c : PushCategory) (R : PushItems) (x : PushItem)
    (h : x ∈ binSorted c R) : x ∈ R ∧ x.category = some c := by
  unfold binSorted sortByPath at h
  have h1 : x ∈ dedupByPath (binFor c R) :=
    (List.perm_insertionSort pathLe _).mem_iff.mp h
  have h2 : x ∈ binFor c R :=
    (dedupByPathGo_sublist [] (binFor c R)).mem h1
  have h3 := List.mem_filter.mp h2
  refine ⟨h3.1, ?_⟩
  have := h3.2
  simp only [Bool.and_eq_true, beq_iff_eq] at this
  exact this.1

/-- Pairwise path-distinctness carries over to every sorted bin. -/
theorem binSorted_pairwise (c : PushCategory) (R : PushItems)
    (h : List.Pairwise (fun a b => a.path ≠ b.path) R) :
    List.Pairwise (fun a b => a.path ≠ b.path) (binSorted c R) := by
  unfold binSorted sortByPath
  have h1 := h.filter (fun i => i.category == some c && c != PushCategory.BLOCKED)
  have h2 := List.Pairwise.sublist (dedupByPathGo_sublist [] (binFor c R)) h1
  exact ((List.perm_insertionSort pathLe _).pairwise_iff
    fun hxy => Ne.symm hxy).mpr h2

/-- No heading line contains a newline. -/
theorem heading_no_newline (c : PushCategory) :
    '\n' ∉ ("# ".data ++ (PushCategory.value c).data) := by
  cases c <;> decide

/-- No line that `to_server_file` emits for a good registry contains a
newline. -/
theorem encLines_no_newline (isDir : GPath → Bool) (r2g : GPath → GPath)
    (ex : GPath → Bool) (R : PushItems)
    (hgood : ∀ i ∈ R, GoodItem isDir r2g ex i) :
    ∀ l ∈ encLines ex R, '\n' ∉ l := by
  intro l hl
  rcases List.mem_flatMap.mp hl with ⟨c, _, hlc⟩
  rw [groupLines_eq] at hlc
  by_cases hbin : (binSorted c R).isEmpty
  · rw [if_pos hbin] at hlc
    cases hlc
  · rw [if_neg hbin] at hlc
    rcases List.mem_append.mp hlc with hmain | hblank
    · rcases List.mem_cons.mp hmain with rfl | hitem
      · exact heading_no_newline c
      · rcases List.mem_map.mp hitem with ⟨i, hi, rfl⟩
        obtain ⟨hiR, _⟩ := mem_binSorted c R i hi
        obtain ⟨hlen2, hsegs, _, _, hurln, _, hex, _, _⟩ := hgood i hiR
        have hpne : i.path ≠ [] := by
          intro hcon; rw [hcon] at hlen2; simp at hlen2
        unfold itemLine
        rw [if_pos hex]
        intro hmem
        rcases List.mem_append.mp hmem with hmem1 | hmem2
        · rcases List.mem_append.mp hmem1 with hmem3 | hmem4
          · exact not_mem_posixD i.path hpne '\n' (by decide)
              (fun s hs => (hsegs s hs).2.2.2.2.1) hmem3
          · simp at hmem4
        · exact hurln hmem2
    · rw [List.mem_singleton.mp hblank]
      simp

/-- Decoding an encoded good registry succeeds and returns exactly the
grouped reconstruction. -/
theorem decode_encText (isDir : GPath → Bool) (r2g : GPath → GPath)
    (ex : GPath → Bool) (status : Option PushStatus) (pl : Option PushList)
    (R : PushItems)
    (hgood : ∀ i ∈ R, GoodItem isDir r2g ex i)
    (hpw : List.Pairwise (fun a b => a.path ≠ b.path) R) :
    PushItems.from_server_file isDir r2g status pl (encText ex R) =
      .ok (grouped status pl R) := by
  have hcross : ∀ c ∈ PushCategory.all, ∀ c' ∈ PushCategory.all, c ≠ c' →
      ∀ i ∈ binSorted c R, ∀ j ∈ binSorted c' R, i.path ≠ j.path := by
    intro c _ c' _ hcc i hi j hj
    obtain ⟨hiR, hic⟩ := mem_binSorted c R i hi
    obtain ⟨hjR, hjc⟩ := mem_binSorted c' R j hj
    have hij : i ≠ j := by
      intro hcon
      rw [hcon] at hic
      rw [hic] at hjc
      exact hcc (by injection hjc)
    exact hpw.forall (fun _ _ hxy => Ne.symm hxy) hiR hjR hij
  unfold PushItems.from_server_file decodeLines encText
  rw [show (String.mk (joinCh '\n' (encLines ex R))).data =
    joinCh '\n' (encLines ex R) from rfl]
  cases henc : encLines ex R with
  | nil =>
    have hgroupednil : grouped status pl R = [] := by
      unfold grouped
      rw [List.flatMap_eq_nil_iff]
      intro c hc
      have hempty := List.flatMap_eq_nil_iff.mp henc c hc
      rw [groupLines_eq] at hempty
      by_cases hbin : (binSorted c R).isEmpty
      · have hb : binSorted c R = [] := by
          cases hbb : binSorted c R
          · rfl
          · rw [hbb] at hbin; simp at hbin
        rw [hb, List.map_nil]
      · rw [if_neg hbin] at hempty
        simp at hempty
    rw [hgroupednil]
    rfl
  | cons L Ls =>
    rw [← henc]
    rw [splitCh_joinCh '\n' (encLines ex R) (by rw [henc]; simp)
      (encLines_no_newline isDir r2g ex R hgood)]
    unfold encLines
    obtain ⟨catF, hF⟩ := foldlM_groups isDir r2g ex status pl R
      PushCategory.all [] (some PushCategory.OTHER)
      (by decide)
      (by
        intro c _ i hi
        obtain ⟨hiR, hic⟩ := mem_binSorted c R i hi
        exact ⟨hgood i hiR, hic⟩)
      (fun c _ => binSorted_pairwise c R hpw)
      hcross
      (by intro c _ i _ j hj; exact absurd hj (List.not_mem_nil j))
    rw [hF]
    rfl

/-- Every category is a member of the declaration-order list. -/
theorem PushCategory.mem_all (c : PushCategory) : c ∈ PushCategory.all := by
  cases c <;> decide

/-- Unfolding of `binFor` on a cons. -/
theorem binFor_cons (c : PushCategory) (i : PushItem) (R : PushItems) :
    binFor c (i :: R) =
      if i.category == some c && c != PushCategory.BLOCKED
      then i :: binFor c R else binFor c R := by
  unfold binFor
  rw [List.filter_cons]

/-- `flatMap` respects pointwise equality of the functions on members. -/
theorem flatMap_congr {α β : Type} (l : List α) (f g : α → List β)
    (h : ∀ a ∈ l, f a = g a) : l.flatMap f = l.flatMap g := by
  induction l with
  | nil => rfl
  | cons a l ih =>
    rw [List.flatMap_cons, List.flatMap_cons, h a (by simp),
      ih fun x hx => h x (by simp [hx])]

/-- `flatMap` respects pointwise permutation of the functions on members. -/
theorem flatMap_perm {α β : Type} (l : List α) (f g : α → List β)
    (h : ∀ a ∈ l, (f a).Perm (g a)) : (l.flatMap f).Perm (l.flatMap g) := by
  induction l with
  | nil => exact List.Perm.refl []
  | cons a l ih =>
    rw [List.flatMap_cons, List.flatMap_cons]
    exact (h a (by simp)).append (ih fun x hx => h x (by simp [hx]))

/-- Inserting one item into the bins of a category list that holds its
category exactly once prepends it, up to permutation. -/
theorem flatMap_binFor_cons_perm (i : PushItem) (R : PushItems)
    (c₀ : PushCategory) (hc : i.category = some c₀)
    (hnb : c₀ ≠ PushCategory.BLOCKED) :
    ∀ (cs : List PushCategory), c₀ ∈ cs → cs.Nodup →
      (cs.flatMap fun c => binFor c (i :: R)).Perm
        (i :: cs.flatMap fun c => binFor c R) := by
  intro cs
  induction cs with
  | nil => intro h _; cases h
  | cons c cs ih =>
    intro hmem hnd
    rw [List.flatMap_cons, List.flatMap_cons, binFor_cons]
    by_cases hcc : c = c₀
    · subst hcc
      rw [if_pos (by simp [hc, bne, hnb])]
      have hrest : (cs.flatMap fun c' => binFor c' (i :: R)) =
          cs.flatMap fun c' => binFor c' R := by
        apply flatMap_congr
        intro c' hc'
        rw [binFor_cons, if_neg]
        simp only [Bool.and_eq_true, beq_iff_eq, hc]
        intro hcon
        have : c = c' := by injection hcon.1
        exact (List.nodup_cons.mp hnd).1 (this ▸ hc')
      rw [hrest]
      exact List.Perm.refl _
    · have hcmem : c₀ ∈ cs := by
        rcases List.mem_cons.mp hmem with h1 | h2
        · exact absurd h1.symm hcc
        · exact h2
      rw [if_neg (by simp [hc]; intro hcon; exact absurd hcon.symm hcc)]
      exact ((ih hcmem (List.nodup_cons.mp hnd).2).append_left
        (binFor c R)).trans List.perm_middle

/-- The bins in declaration order partition a registry of known, non-blocked
categories: their concatenation is a permutation of the registry. -/
theorem flatMap_binFor_perm (R : PushItems)
    (h : ∀ i ∈ R, ∃ c, i.category = some c ∧ c ≠ PushCategory.BLOCKED) :
    (PushCategory.all.flatMap fun c => binFor c R).Perm R := by
  induction R with
  | nil =>
    have hnil : (PushCategory.all.flatMap fun c => binFor c []) = [] :=
      List.flatMap_eq_nil_iff.mpr fun c _ => rfl
    rw [hnil]
  | cons i R ih =>
    obtain ⟨c₀, hc₀, hnb⟩ := h i (by simp)
    exact (flatMap_binFor_cons_perm i R c₀ hc₀ hnb PushCategory.all
      (PushCategory.mem_all c₀) (by decide)).trans
      ((ih fun x hx => h x (by simp [hx])).cons i)

/-- Deduplication is the identity on a list of pairwise-distinct paths none
of which was seen before. -/
theorem dedupByPathGo_eq_self :
    ∀ (l : PushItems) (seen : List GPath),
      List.Pairwise (fun a b => a.path ≠ b.path) l →
      (∀ x ∈ l, x.path ∉ seen) → dedupByPathGo seen l = l := by
  intro l
  induction l with
  | nil => intro seen _ _; rfl
  | cons i rest ih =>
    intro seen hpw hseen
    unfold dedupByPathGo
    have hcon : seen.contains i.path = false := by
      cases hc : seen.contains i.path
      · rfl
      · exact absurd (List.mem_of_elem_eq_true hc) (hseen i (by simp))
    rw [hcon]
    show i :: dedupByPathGo (i.path :: seen) rest = i :: rest
    rw [ih (i.path :: seen) (List.pairwise_cons.mp hpw).2]
    intro x hx
    intro hmem
    rcases List.mem_cons.mp hmem with h1 | h2
    · exact (List.pairwise_cons.mp hpw).1 x hx h1.symm
    · exact hseen x (by simp [hx]) h2

/-- For a registry with pairwise-distinct paths, each sorted bin is a
permutation of the raw bin. -/
theorem binSorted_perm_binFor (c : PushCategory) (R : PushItems)
    (hpw : List.Pairwise (fun a b => a.path ≠ b.path) R) :
    (binSorted c R).Perm (binFor c R) := by
  unfold binSorted sortByPath dedupByPath
  rw [dedupByPathGo_eq_self (binFor c R)
    [] (hpw.filter _) (by intro x _ hmem; cases hmem)]
  exact List.perm_insertionSort pathLe (binFor c R)

/-- The reconstruction of an encoded good registry is a permutation of the
registry with every member re-tagged by `decItem`. -/
theorem grouped_perm (status : Option PushStatus) (pl : Option PushList)
    (R : PushItems)
    (hcat : ∀ i ∈ R, ∃ c, i.category = some c ∧ c ≠ PushCategory.BLOCKED)
    (hpw : List.Pairwise (fun a b => a.path ≠ b.path) R) :
    (grouped status pl R).Perm (R.map (decItem status pl)) := by
  unfold grouped
  have h1 : (PushCategory.all.flatMap
      fun c => (binSorted c R).map (decItem status pl)).Perm
      (PushCategory.all.flatMap
        fun c => (binFor c R).map (decItem status pl)) :=
    flatMap_perm _ _ _ fun c _ => (binSorted_perm_binFor c R hpw).map _
  have h2 : (PushCategory.all.flatMap
      fun c => (binFor c R).map (decItem status pl)) =
      (PushCategory.all.flatMap fun c => binFor c R).map (decItem status pl) :=
    (List.map_flatMap _ _ _).symm
  exact h1.trans (h2 ▸ (flatMap_binFor_perm R hcat).map (decItem status pl))

/-- A good member has a known, non-blocked category. -/
theorem goodItem_cat (isDir : GPath → Bool) (r2g : GPath → GPath)
    (ex : GPath → Bool) (i : PushItem) (hg : GoodItem isDir r2g ex i) :
    ∃ c, i.category = some c ∧ c ≠ PushCategory.BLOCKED := by
  obtain ⟨_, _, _, _, _, _, _, hcne, hcnb⟩ := hg
  cases hc : i.category with
  | none => exact absurd hc hcne
  | some c =>
    refine ⟨c, rfl, ?_⟩
    intro hcon
    rw [hcon] at hc
    exact hcnb hc

/-- Re-tagging does not change paths. -/
theorem map_path_decItem (status : Option PushStatus) (pl : Option PushList)
    (R : PushItems) :
    (R.map (decItem status pl)).map PushItem.path = R.map PushItem.path := by
  induction R with
  | nil => rfl
  | cons i R ih => simp [ih, decItem]

/-- Re-tagging does not change the logical content. -/
theorem map_triple_decItem (status : Option PushStatus) (pl : Option PushList)
    (R : PushItems) :
    (R.map (decItem status pl)).map triple = R.map triple := by
  induction R with
  | nil => rfl
  | cons i R ih => simp [ih, decItem, triple]

/-- Every member of the reconstruction is a re-tagged member of the
registry. -/
theorem mem_grouped (status : Option PushStatus) (pl : Option PushList)
    (R : PushItems) (j : PushItem) (h : j ∈ grouped status pl R) :
    ∃ i ∈ R, j = decItem status pl i := by
  unfold grouped at h
  rcases List.mem_flatMap.mp h with ⟨c, _, hj⟩
  rcases List.mem_map.mp hj with ⟨i, hi, rfl⟩
  exact ⟨i, (mem_binSorted c R i hi).1, rfl⟩

/-- Goodness carries over to the reconstruction. -/
theorem grouped_good (isDir : GPath → Bool) (r2g : GPath → GPath)
    (ex : GPath → Bool) (status : Option PushStatus) (pl : Option PushList)
    (R : PushItems) (hgood : ∀ i ∈ R, GoodItem isDir r2g ex i) :
    ∀ j ∈ grouped status pl R, GoodItem isDir r2g ex j := by
  intro j hj
  obtain ⟨i, hiR, rfl⟩ := mem_grouped status pl R j hj
  exact hgood i hiR

/-- Pairwise path-distinctness carries over to the reconstruction. -/
theorem grouped_pairwise (status : Option PushStatus) (pl : Option PushList)
    (R : PushItems)
    (hcat : ∀ i ∈ R, ∃ c, i.category = some c ∧ c ≠ PushCategory.BLOCKED)
    (hpw : List.Pairwise (fun a b => a.path ≠ b.path) R) :
    List.Pairwise (fun a b => a.path ≠ b.path) (grouped status pl R) := by
  have h1 : List.Pairwise Ne (R.map PushItem.path) := List.pairwise_map.mpr hpw
  have h2 : ((grouped status pl R).map PushItem.path).Perm
      (R.map PushItem.path) := by
    have h3 := (grouped_perm status pl R hcat hpw).map PushItem.path
    rw [map_path_decItem] at h3
    exact h3
  exact List.pairwise_map.mp
    ((h2.pairwise_iff fun hxy => Ne.symm hxy).mpr h1)

/-- The logical content of the reconstruction is a permutation of the
registry's. -/
theorem triples_grouped_perm (status : Option PushStatus)
    (pl : Option PushList) (R : PushItems)
    (hcat : ∀ i ∈ R, ∃ c, i.category = some c ∧ c ≠ PushCategory.BLOCKED)
    (hpw : List.Pairwise (fun a b => a.path ≠ b.path) R) :
    ((grouped status pl R).map triple).Perm (R.map triple) := by
  have h1 := (grouped_perm status pl R hcat hpw).map triple
  rw [map_triple_decItem] at h1
  exact h1

/-- CLAIM C5 amended (proved).  For every non-empty registry whose members
have normalizer-fixed paths of at least two well-formed segments (non-empty,
not `.`, free of `/`, `#`, newlines and whitespace), pairwise-distinct paths,
`#`-free newline-free strip-stable urls, are present on disk, and carry known
non-`BLOCKED` categories: `to_server_file` writes the manifest text, decoding
it succeeds, re-encoding and decoding again succeeds, and the second decoding
carries exactly the same set of logical items (path, category, url triples)
as the first — the round trip is lossless modulo encode's sorting and
grouping.  (Without these restrictions, the claim fails: see the
counterexample theorem, where re-decoding re-normalizes a path and drops the
item.) -/
theorem C5_roundtrip_restricted (isDir : GPath → Bool) (r2g : GPath → GPath)
    (ex : GPath → Bool) (status : Option PushStatus) (pl : Option PushList)
    (R : PushItems) (hne : R ≠ [])
    (hgood : ∀ i ∈ R, GoodItem isDir r2g ex i)
    (hpw : List.Pairwise (fun a b => a.path ≠ b.path) R) :
    PushItems.to_server_file ex R = some (encText ex R) ∧
    ∃ R1 R2,
      PushItems.from_server_file isDir r2g status pl (encText ex R) =
        .ok R1 ∧
      PushItems.from_server_file isDir r2g status pl (encText ex R1) =
        .ok R2 ∧
      R1 ≠ [] ∧
      ∀ t, t ∈ R2.map triple ↔ t ∈ R1.map triple := by
  have hcat : ∀ i ∈ R, ∃ c, i.category = some c ∧ c ≠ PushCategory.BLOCKED :=
    fun i hi => goodItem_cat isDir r2g ex i (hgood i hi)
  have hgood1 : ∀ j ∈ grouped status pl R, GoodItem isDir r2g ex j :=
    grouped_good isDir r2g ex status pl R hgood
  have hpw1 : List.Pairwise (fun a b => a.path ≠ b.path)
      (grouped status pl R) := grouped_pairwise status pl R hcat hpw
  have hcat1 : ∀ j ∈ grouped status pl R,
      ∃ c, j.category = some c ∧ c ≠ PushCategory.BLOCKED :=
    fun j hj => goodItem_cat isDir r2g ex j (hgood1 j hj)
  refine ⟨?_, grouped status pl R, grouped status pl (grouped status pl R),
    decode_encText isDir r2g ex status pl R hgood hpw,
    decode_encText isDir r2g ex status pl (grouped status pl R) hgood1 hpw1,
    ?_, ?_⟩
  · unfold PushItems.to_server_file
    rw [if_pos]
    apply List.all_eq_true.mpr
    intro i hi
    obtain ⟨c, hc, _⟩ := hcat i hi
    rw [hc]
    rfl
  · intro hcon
    have hlen := (grouped_perm status pl R hcat hpw).length_eq
    rw [hcon] at hlen
    simp at hlen
    exact hne (List.length_eq_zero.mp hlen.symm)
  · intro t
    exact (triples_grouped_perm status pl (grouped status pl R)
      hcat1 hpw1).mem_iff

/-- Witness for `C5_roundtrip_restricted` at the two-member registry
`[a/b, a/b/c]` with existing paths. -/
theorem C5_roundtrip_restricted_witness :
    PushItems.to_server_file allExist [itemAB, itemABC] =
      some (encText allExist [itemAB, itemABC]) ∧
    ∃ R1 R2,
      PushItems.from_server_file noDir gId (some PushStatus.IN_DEV) none
        (encText allExist [itemAB, itemABC]) = .ok R1 ∧
      PushItems.from_server_file noDir gId (some PushStatus.IN_DEV) none
        (encText allExist R1) = .ok R2 ∧
      R1 ≠ [] ∧
      ∀ t, t ∈ R2.map triple ↔ t ∈ R1.map triple :=
  C5_roundtrip_restricted noDir gId allExist (some PushStatus.IN_DEV) none
    [itemAB, itemABC] (by decide) (by decide) (by decide)

/-- CLAIM C5 counterexample.  The registry `[ofl/a.ttf/b.ttf]` is non-empty
and has no `Blocked` member, yet its encode/decode round trip is not lossless:
the first decoding holds one item at `ofl/a.ttf` (the `add` normalization of
the written path), and re-encoding then decoding again yields an empty
registry (re-decoding truncates `ofl/a.ttf` to the discarded one-segment
`ofl`), so the second encoding's set of logical items differs from the
first's. -/
theorem C5_roundtrip_drops_item :
    PushItems.to_server_file allExist [itemOflWeird] =
      some (encText allExist [itemOflWeird]) ∧
    PushItems.from_server_file noDir gId (some PushStatus.IN_DEV) none
      (encText allExist [itemOflWeird]) =
      .ok [{ itemOflWeird with path := ["ofl", "a.ttf"] }] ∧
    PushItems.from_server_file noDir gId (some PushStatus.IN_DEV) none
      (encText allExist [{ itemOflWeird with path := ["ofl", "a.ttf"] }]) =
      .ok [] ∧
    (["ofl", "a.ttf"], some PushCategory.NEW, "1") ∈
      ([{ itemOflWeird with path := ["ofl", "a.ttf"] }] : PushItems).map
        triple ∧
    (["ofl", "a.ttf"], some PushCategory.NEW, "1") ∉
      (([] : PushItems).map triple) := by
  exact ⟨by decide, by decide, by decide, by decide, by decide⟩
